import Mathlib

/-!
Shallow embedding of the `tabprinter` Rust library (src/lib.rs, src/styles.rs)
for verifying its natural-language specification.

Modelling conventions:
* `f64` is modelled by the exact-rational type `Frac` below.  Every numeric
  string the claims evaluate is a finite plain decimal, on which Rust `f64`
  arithmetic (parsing, integer sums, the two-place formatting of the concrete
  scenario values) is exact, so the rational model agrees with the binary
  floating-point code on all inputs appearing in the claims.  Exponent, `inf`
  and `NaN` forms of `f64` parsing are outside the model.
* Panics (`assert_eq!` in `add_row`, out-of-bounds `row[i]` indexing, `usize`
  underflow in the simple rendering path) are modelled by `Option` or
  `Except Unit` results where a claim is about them; where every claim
  supplies an in-range index, `row[i]` is modelled by `List.getD` with a
  default that is never reached under the claim's hypotheses.
* Text written through the `termcolor` writer is modelled as the plain string
  of characters emitted; color directives (`set_color`/`reset`) carry no text
  and are not part of the model.
-/

namespace Tabprinter

/-! ## Exact rationals standing in for `f64` -/

/-- Exact rational number standing in for `f64`.  Kept normalized (coprime
numerator/denominator, positive denominator) by the smart constructor
`Frac.norm`, so structural equality is value equality. -/
structure Frac where
  num : ℤ
  den : ℕ
deriving DecidableEq

/-- Normalizing constructor: divides out the gcd.  Callers always pass a
positive denominator. -/
def Frac.norm (n : ℤ) (d : ℕ) : Frac :=
  let g := Nat.gcd n.natAbs d
  ⟨n / (g : ℤ), d / g⟩

/-- The rational `n / 1`. -/
def Frac.ofInt (n : ℤ) : Frac := ⟨n, 1⟩

/-- Addition of exact rationals. -/
def Frac.add (a b : Frac) : Frac :=
  Frac.norm (a.num * (b.den : ℤ) + b.num * (a.den : ℤ)) (a.den * b.den)

/-- Division of an exact rational by a positive natural number. -/
def Frac.divByNat (a : Frac) (n : ℕ) : Frac :=
  Frac.norm a.num (a.den * n)

/-- Multiplication by `10 ^ k`. -/
def Frac.mulPow10 (a : Frac) (k : ℕ) : Frac :=
  Frac.norm (a.num * (10 : ℤ) ^ k) a.den

/-- Strict order test on exact rationals. -/
def Frac.blt (a b : Frac) : Bool :=
  a.num * (b.den : ℤ) < b.num * (a.den : ℤ)

/-- Whether the rational is negative. -/
def Frac.isNeg (a : Frac) : Bool := a.num < 0

/-- Floor of an exact rational. -/
def Frac.floor (a : Frac) : ℤ := a.num.fdiv (a.den : ℤ)

/-- Sum of a list of exact rationals, as Rust's `Iterator::sum` folds from
zero on the left. -/
def Frac.sum (l : List Frac) : Frac := l.foldl Frac.add (Frac.ofInt 0)

/-- First minimum of a nonempty list (`Iterator::min_by` with `partial_cmp`);
the empty case is never reached by its caller and gets an arbitrary value. -/
def Frac.listMin : List Frac → Frac
  | [] => Frac.ofInt 0
  | x :: xs => xs.foldl (fun a b => if Frac.blt b a then b else a) x

/-- Last maximum of a nonempty list (`Iterator::max_by` with `partial_cmp`);
the empty case is never reached by its caller and gets an arbitrary value. -/
def Frac.listMax : List Frac → Frac
  | [] => Frac.ofInt 0
  | x :: xs => xs.foldl (fun a b => if Frac.blt a b then b else a) x

/-! ## The data model -/

/-- Text alignment within a table cell (`Alignment` in src/lib.rs). -/
inductive Alignment where
  | Left
  | Center
  | Right
deriving DecidableEq

/-- A table column (`Column` in src/lib.rs): header text, width, alignment. -/
structure Column where
  header : String
  width : Nat
  alignment : Alignment
deriving DecidableEq

/-- Cell styling flags (`CellStyle` in src/lib.rs). -/
structure CellStyle where
  bold : Bool
  italic : Bool
  underline : Bool
  padding : Nat
  decimal_places : Option Nat
  thousand_separator : Bool
deriving DecidableEq

/-- Models `CellStyle::new`: the default cell style. -/
def CellStyle.new : CellStyle :=
  { bold := false, italic := false, underline := false, padding := 1,
    decimal_places := none, thousand_separator := false }

/-- A table cell (`Cell` in src/lib.rs): raw content plus a style. -/
structure Cell where
  content : String
  style : CellStyle
deriving DecidableEq

/-- Models `Cell::new`: a cell with the given content and the default style. -/
def Cell.new (content : String) : Cell :=
  { content := content, style := CellStyle.new }

deriving instance DecidableEq for Except

/-! ## String helpers mirroring the Rust primitives -/

/-- Splits a character list at every occurrence of `c`, keeping empty pieces,
as Rust `str::split(c)` does. -/
def splitOnChar (c : Char) : List Char → List (List Char)
  | [] => [[]]
  | x :: xs =>
    let r := splitOnChar c xs
    if x = c then [] :: r else (x :: r.headD []) :: r.tail

/-- Models Rust `str::lines()` restricted to `\n` line endings: splits at
newlines, with no entry after a trailing newline and no entries at all for
the empty string.  (`\r\n` endings are accepted by the Rust method but appear
in no claim and are not modelled.) -/
def rustLines (s : String) : List String :=
  match s.toList with
  | [] => []
  | cs =>
    let parts := (splitOnChar '\n' cs).map String.mk
    if cs.getLast? = some '\n' then parts.dropLast else parts

/-- Numeric value of a decimal digit character. -/
def digitVal (c : Char) : Nat := c.toNat - '0'.toNat

/-- Value of a list of decimal digit characters, most significant first. -/
def digitsVal (cs : List Char) : Nat := cs.foldl (fun n c => 10 * n + digitVal c) 0

/-- Models Rust `str::parse::<f64>()` on finite plain decimal literals
(optional sign, digits, optional fractional part): the exact rational value,
or `none` when the string is not such a literal.  Exponent, `inf` and `NaN`
forms are outside the model; no claim involves them. -/
def parseF64 (s : String) : Option Frac :=
  let cs := s.toList
  let signed : ℤ × List Char :=
    match cs with
    | '+' :: rest => (1, rest)
    | '-' :: rest => (-1, rest)
    | _ => (1, cs)
  let sign := signed.1
  let body := signed.2
  let intPart := body.takeWhile (fun c => c ≠ '.')
  let rest := body.dropWhile (fun c => c ≠ '.')
  match rest with
  | [] =>
    if !intPart.isEmpty && intPart.all Char.isDigit then
      some (Frac.ofInt (sign * digitsVal intPart))
    else none
  | _ :: fracPart =>
    if intPart.all Char.isDigit && fracPart.all Char.isDigit &&
        (!intPart.isEmpty || !fracPart.isEmpty) then
      some (Frac.norm
        (sign * ((digitsVal intPart : ℤ) * (10 : ℤ) ^ fracPart.length +
          (digitsVal fracPart : ℤ)))
        (10 ^ fracPart.length))
    else none

/-- Nearest integer to a rational, ties to the even neighbour; models the
rounding used by Rust's fixed-precision float formatting. -/
def roundHalfEven (q : Frac) : ℤ :=
  let f := q.floor
  let rNum := 2 * (q.num - f * (q.den : ℤ))
  if rNum < (q.den : ℤ) then f
  else if (q.den : ℤ) < rNum then f + 1
  else if f % 2 = 0 then f else f + 1

/-- Left-pads a string with zeros to length `k`. -/
def padZeros (s : String) (k : Nat) : String :=
  String.mk (List.replicate (k - s.length) '0') ++ s

/-- Models Rust `format!("{:.k$}", number)` for `f64` on the rational model:
round to `k` decimal places (ties to even) and print with exactly `k` digits
after the point. -/
def formatFixed (q : Frac) (k : Nat) : String :=
  let n := roundHalfEven (q.mulPow10 k)
  let sign := if n < 0 ∨ (n = 0 ∧ q.isNeg) then "-" else ""
  let a := n.natAbs
  if k = 0 then sign ++ toString a
  else sign ++ toString (a / 10 ^ k) ++ "." ++ padZeros (toString (a % 10 ^ k)) k

/-- Models Rust `f64::to_string` (the `Display` form) on the rational model:
for a terminating decimal, the shortest plain decimal form — an integer
prints with no point, otherwise with the minimal number of fractional digits
(so without trailing zeros).  Non-terminating rationals never arise from
`parseF64` or sums of its results; they get an arbitrary fallback form. -/
def f64ToString (q : Frac) : String :=
  if q.den = 1 then toString q.num
  else
    match (List.range 64).find? (fun k => (q.mulPow10 k).den = 1) with
    | some k =>
      let n := (q.mulPow10 k).num
      let sign := if n < 0 then "-" else ""
      let a := n.natAbs
      sign ++ toString (a / 10 ^ k) ++ "." ++ padZeros (toString (a % 10 ^ k)) k
    | none => toString q.num ++ "/" ++ toString q.den

/-- Models `Vec::insert(i, c)`: inserts `c` before position `i`.  The one use
site (the thousands-separator loop) only calls it with `i ≤ length`. -/
def vecInsert : List Char → Nat → Char → List Char
  | xs, 0, c => c :: xs
  | [], _ + 1, c => [c]
  | x :: xs, n + 1, c => x :: vecInsert xs n c

/-- One fuelled unfolding of the thousands-separator insertion loop of
`Cell::formatted_content` (src/lib.rs lines 173-178): while `i > 0`, insert
`','` at index `i` and decrease `i` by 3.  The fuel only bounds the number of
iterations; `commaLoop` supplies enough fuel that it never runs out. -/
def commaLoopF : Nat → List Char → ℤ → List Char
  | 0, cs, _ => cs
  | fuel + 1, cs, i =>
    if i > 0 then commaLoopF fuel (vecInsert cs i.toNat ',') (i - 3) else cs

/-- The thousands-separator insertion loop, started at `i = len - 3` by its
caller; `i.toNat` iterations of fuel always suffice since `i` strictly
decreases by 3 per iteration. -/
def commaLoop (cs : List Char) (i : ℤ) : List Char := commaLoopF i.toNat cs i

/-- Models `Cell::formatted_content` (src/lib.rs lines 163-190): if the content
parses as a number, apply optional fixed decimal-place formatting, then the
optional thousands-separator insertion on the part before the decimal point;
otherwise return the content unchanged. -/
def Cell.formatted_content (c : Cell) : String :=
  match parseF64 c.content with
  | none => c.content
  | some number =>
    let formatted :=
      match c.style.decimal_places with
      | some decimal_places => formatFixed number decimal_places
      | none => f64ToString number
    if c.style.thousand_separator then
      let parts := splitOnChar '.' formatted.toList
      let integer_part := parts.headD []
      let chars := commaLoop integer_part ((integer_part.length : ℤ) - 3)
      if parts.length > 1 then
        String.mk chars ++ "." ++ String.mk (parts.getD 1 [])
      else String.mk chars
    else formatted

/-! ## The table and its operations -/

/-- The closed enumeration of table styles (`TableStyle` in src/lib.rs). -/
inductive TableStyle where
  | Simple
  | Grid
  | FancyGrid
  | Clean
  | Round
  | Banner
  | Block
  | Amiga
  | Minimal
  | Compact
  | Markdown
  | Dotted
  | Heavy
  | Neon
deriving DecidableEq

/-- A table (`Table` in src/lib.rs): columns, rows of cells, and a style. -/
structure Table where
  columns : List Column
  rows : List (List Cell)
  style : TableStyle
deriving DecidableEq

/-- Models the `row[i]` indexing of the source.  Every claim supplies bounds
under which the default is never reached; the one claim about out-of-bounds
panics (`aggregate_column`) is modelled separately via `collectValues`. -/
def cellAt (row : List Cell) (i : Nat) : Cell := row.getD i (Cell.new "")

/-- Models the `columns[i]` access used when stating theorems positionally. -/
def colAt (t : Table) (i : Nat) : Column :=
  t.columns.getD i { header := "", width := 0, alignment := Alignment.Left }

/-- Models `Table::new`: an empty table with the given style. -/
def Table.new (style : TableStyle) : Table :=
  { columns := [], rows := [], style := style }

/-- Models `Table::add_column` (src/lib.rs lines 214-220): pushes a column; existing
rows are not touched. -/
def Table.add_column (t : Table) (header : String) (width : Nat)
    (alignment : Alignment) : Table :=
  { t with columns := t.columns ++ [{ header := header, width := width, alignment := alignment }] }

/-- Models `Table::add_row` (src/lib.rs lines 224-231): `assert_eq!` of the lengths
followed by a push; the panic on mismatch is modelled by `none`. -/
def Table.add_row (t : Table) (row : List Cell) : Option Table :=
  if t.columns.length = row.length then some { t with rows := t.rows ++ [row] }
  else none

/-- The inner maximum of `Table::auto_adjust_widths`: the byte length of the
raw cell content (`row[i].content.len()`), maximized over the rows, `0` for a
table without rows (`unwrap_or(0)`). -/
def maxContentLen (t : Table) (i : Nat) : Nat :=
  ((t.rows.map (fun row => (cellAt row i).content.utf8ByteSize)).max?).getD 0

/-- Models `Table::auto_adjust_widths` (src/lib.rs lines 234-245): for each column
position (`iter_mut().enumerate()`), the width becomes
`header.len().max(max over rows of row[i].content.len()) + 2`.  Lengths are
byte lengths (`str::len`). -/
def Table.auto_adjust_widths (t : Table) : Table :=
  { t with columns := (List.range t.columns.length).map (fun i =>
      let col := colAt t i
      { col with width := max col.header.utf8ByteSize (maxContentLen t i) + 2 }) }

/-- Lexicographic order on character lists by code point; agrees with Rust's
`str::cmp`, which compares UTF-8 bytes (byte order equals code-point order). -/
def charListLe : List Char → List Char → Bool
  | [], _ => true
  | _ :: _, [] => false
  | a :: as, b :: bs =>
    if a.toNat < b.toNat then true
    else if b.toNat < a.toNat then false
    else charListLe as bs

/-- String comparison mirroring `str::cmp`-based `≤`. -/
def strLe (a b : String) : Bool := charListLe a.toList b.toList

/-- The row comparator of `Table::sort_by_column`: the `cmp` of the contents
at `column_index`, reversed when descending. -/
def sortRel (i : Nat) (ascending : Bool) (a b : List Cell) : Prop :=
  (if ascending then strLe (cellAt a i).content (cellAt b i).content
   else strLe (cellAt b i).content (cellAt a i).content) = true

instance sortRelDecidable (i : Nat) (ascending : Bool) :
    DecidableRel (sortRel i ascending) := fun a b => by
  unfold sortRel; infer_instance

/-- Models `Table::sort_by_column` (src/lib.rs lines 249-258): a stable sort of the
rows by the comparator; modelled by insertion sort, which is stable. -/
def Table.sort_by_column (t : Table) (column_index : Nat) (ascending : Bool) :
    Table :=
  { t with rows := t.rows.insertionSort (sortRel column_index ascending) }

/-- Models `Table::filter_rows` (src/lib.rs lines 262-272): a new table with the same
columns and style and only the rows satisfying the predicate. -/
def Table.filter_rows (t : Table) (predicate : List Cell → Bool) : Table :=
  { columns := t.columns, rows := t.rows.filter predicate, style := t.style }

/-- Models `Table::calculate_subtotal` (src/lib.rs lines 305-324): per column
position, `"Subtotal"` at position 0; otherwise the sum of the parsed column
values when every cell of the group parses (the guarded `unwrap` is modelled
by `getD`), else an empty cell. -/
def Table.calculate_subtotal (t : Table) (group : List (List Cell)) : List Cell :=
  (List.range t.columns.length).map (fun i =>
    if i = 0 then Cell.new "Subtotal"
    else if group.all (fun row => (parseF64 (cellAt row i).content).isSome) then
      Cell.new (f64ToString (Frac.sum
        (group.map (fun row => (parseF64 (cellAt row i).content).getD (Frac.ofInt 0)))))
    else Cell.new "")

/-- Loop state of `Table::group_by_column_with_subtotals`: the output rows,
the current run, and the current grouping value. -/
structure GroupState where
  grouped_rows : List (List Cell)
  current_group : List (List Cell)
  current_value : Option String

/-- One iteration of the row loop of `group_by_column_with_subtotals`
(src/lib.rs lines 280-294): on a change of grouping value, flush the subtotal
of the finished run (if any) and start a new run; the processed row is pushed
to the output and to the current run in both branches. -/
def groupStep (t : Table) (column_index : Nat) (s : GroupState)
    (row : List Cell) : GroupState :=
  let value := (cellAt row column_index).content
  if s.current_value = none ∨ s.current_value ≠ some value then
    let flushed :=
      if s.current_group.isEmpty then s.grouped_rows
      else s.grouped_rows ++ [t.calculate_subtotal s.current_group]
    { grouped_rows := flushed ++ [row], current_group := [row],
      current_value := some value }
  else
    { grouped_rows := s.grouped_rows ++ [row],
      current_group := s.current_group ++ [row],
      current_value := s.current_value }

/-- Models `Table::group_by_column_with_subtotals` (src/lib.rs lines 275-302): run
the row loop, flush the final run's subtotal, and replace the row sequence. -/
def Table.group_by_column_with_subtotals (t : Table) (column_index : Nat) :
    Table :=
  let s := t.rows.foldl (groupStep t column_index)
    { grouped_rows := [], current_group := [], current_value := none }
  let final :=
    if s.current_group.isEmpty then s.grouped_rows
    else s.grouped_rows ++ [t.calculate_subtotal s.current_group]
  { t with rows := final }

/-- The final flush of `group_by_column_with_subtotals` (src/lib.rs lines
296-299), factored out so the loop can be reasoned about state-by-state:
append the subtotal of the still-open run, if any, to the output rows. -/
def groupFinalize (t : Table) (s : GroupState) : List (List Cell) :=
  if s.current_group.isEmpty then s.grouped_rows
  else s.grouped_rows ++ [t.calculate_subtotal s.current_group]

/-- Modelled from the spec's words (C2/C3): partition the rows into maximal
consecutive runs sharing the grouping-column value of the run's first row,
and after each run insert the synthetic subtotal row computed from exactly
that run. -/
def groupRunsSpec (t : Table) (ci : Nat) : List (List Cell) → List (List Cell)
  | [] => []
  | r :: rest =>
    let v := (cellAt r ci).content
    let run := r :: rest.takeWhile (fun x => (cellAt x ci).content == v)
    run ++ t.calculate_subtotal run ::
      groupRunsSpec t ci (rest.dropWhile (fun x => (cellAt x ci).content == v))
termination_by l => l.length
decreasing_by
  simp only [List.length_cons]
  have := (List.dropWhile_sublist (l := rest)
    (fun x => (cellAt x ci).content == (cellAt r ci).content)).length_le
  omega

/-! ## Rendering -/

/-- A string of `n` spaces (`" ".repeat(n)`). -/
def spaces (n : Nat) : String := String.mk (List.replicate n ' ')

/-- Models Rust's format-width padding `{:<w$}` / `{:^w$}` / `{:>w$}`: pad
with spaces to width `w` (counted in characters, as the Rust formatter does),
leaving longer strings untouched; centering puts the extra space on the
right. -/
def padTo (s : String) (w : Nat) (a : Alignment) : String :=
  let len := s.length
  if w ≤ len then s
  else
    let pad := w - len
    match a with
    | Alignment.Left => s ++ spaces pad
    | Alignment.Right => spaces pad ++ s
    | Alignment.Center => spaces (pad / 2) ++ s ++ spaces (pad - pad / 2)

/-- The column loop of `Table::print_headers` (src/lib.rs lines 350-377):
each header is padded to `column.width - 1`; the `usize` subtraction is
modelled as a checked one, with `.error ()` standing for the underflow panic
at width 0; a single space separates consecutive columns. -/
def print_headers_go : List Column → Except Unit String
  | [] => Except.ok ""
  | [column] =>
    if column.width = 0 then Except.error ()
    else Except.ok (padTo column.header (column.width - 1) column.alignment)
  | column :: rest =>
    if column.width = 0 then Except.error ()
    else do
      let r ← print_headers_go rest
      Except.ok (padTo column.header (column.width - 1) column.alignment ++ " " ++ r)

/-- Models `Table::print_headers`: the column loop followed by `writeln!`. -/
def Table.print_headers (t : Table) : Except Unit String :=
  match print_headers_go t.columns with
  | Except.error e => Except.error e
  | Except.ok s => Except.ok (s ++ "\n")

/-- One cell of a simple-mode row line (`Table::print_row`, src/lib.rs lines
383-427): cell padding, the formatted content padded to `column.width - 1`
(checked subtraction modelling the `usize` underflow panic), cell padding,
and the single-space column separator. -/
def rowChunkSimple (column : Column) (cell : Cell) : Except Unit String :=
  if column.width = 0 then Except.error ()
  else Except.ok (spaces cell.style.padding ++
    padTo cell.formatted_content (column.width - 1) column.alignment ++
    spaces cell.style.padding ++ " ")

/-- The `columns.zip(row)` loop of one output line of `Table::print_row`. -/
def rowLineSimple : List (Column × Cell) → Except Unit String
  | [] => Except.ok ""
  | p :: rest => do
    let a ← rowChunkSimple p.1 p.2
    let r ← rowLineSimple rest
    Except.ok (a ++ r)

/-- Models `max_lines` of `print_row`/`print_row_styled`: the maximum over the cells
of the number of `lines()` of the raw content, `1` for an empty row
(`max().unwrap_or(1)`). -/
def rowHeight (row : List Cell) : Nat :=
  ((row.map (fun c => (rustLines c.content).length)).max?).getD 1

/-- Models `Table::print_row` (src/lib.rs lines 380-431).  The source computes
`lines.get(line_index).unwrap_or(&"")` into a variable `_line` that is never
used, and instead writes `cell.formatted_content()` on every iteration of the
line loop, so each of the `max_lines` iterations emits the same text; the
model factors that constant line out of the loop. -/
def Table.print_row (t : Table) (row : List Cell) : Except Unit String :=
  match rowLineSimple (t.columns.zip row) with
  | Except.error e => Except.error e
  | Except.ok line =>
    Except.ok (String.join (List.replicate (rowHeight row) (line ++ "\n")))

/-- One border-line template (`LineStyle` in src/lib.rs); the `end` glyph is
named `endGlyph` because `end` is reserved in Lean. -/
structure LineStyle where
  begin : String
  hline : String
  sep : String
  endGlyph : String
deriving DecidableEq

/-- The `row.zip(columns)` loop of one output line of
`Table::print_row_styled`: separator before every cell but the first, then
`" {padding}{field}{padding} "` with the field padded to the full column
width. -/
def styledChunks (ls : LineStyle) : Nat → List (Cell × Column) → String
  | _, [] => ""
  | i, p :: rest =>
    (if 0 < i then ls.sep else "") ++ " " ++ spaces p.1.style.padding ++
      padTo p.1.formatted_content p.2.width p.2.alignment ++
      spaces p.1.style.padding ++ " " ++ styledChunks ls (i + 1) rest

/-- Models `Table::print_row_styled` (src/lib.rs lines 446-505).  Like `print_row`,
the source computes the per-line slice into an unused `_line` and writes the
full `formatted_content()` on every one of the `max_lines` iterations; the
model factors the constant line out. -/
def Table.print_row_styled (t : Table) (row : List Cell) (ls : LineStyle) :
    String :=
  let line := ls.begin ++ styledChunks ls 0 (row.zip t.columns) ++
    ls.endGlyph ++ "\n"
  String.join (List.replicate (rowHeight row) line)

/-! ## Aggregation -/

/-- The value collection of `Table::aggregate_column` (src/lib.rs lines
565-569): `rows.iter().filter_map(|row| row[column_index].parse().ok())`.
`row[column_index]` panics on an out-of-bounds index, modelled by
`.error ()`; cells that do not parse are skipped silently. -/
def collectValues : List (List Cell) → Nat → Except Unit (List Frac)
  | [], _ => Except.ok []
  | row :: rest, i =>
    match row[i]? with
    | none => Except.error ()
    | some cell => do
      let vs ← collectValues rest i
      match parseF64 cell.content with
      | some v => Except.ok (v :: vs)
      | none => Except.ok vs

/-- Models `Table::aggregate_column` (src/lib.rs lines 561-575): `none` when no
value parses, otherwise the reduction applied to the parsed values. -/
def Table.aggregate_column (t : Table) (column_index : Nat)
    (aggregation_fn : List Frac → Frac) : Except Unit (Option Frac) :=
  match collectValues t.rows column_index with
  | Except.error e => Except.error e
  | Except.ok values =>
    Except.ok (if values.isEmpty then none else some (aggregation_fn values))

/-- Models `Table::sum_column`. -/
def Table.sum_column (t : Table) (column_index : Nat) : Except Unit (Option Frac) :=
  t.aggregate_column column_index Frac.sum

/-- Models `Table::average_column`. -/
def Table.average_column (t : Table) (column_index : Nat) :
    Except Unit (Option Frac) :=
  t.aggregate_column column_index (fun values => (Frac.sum values).divByNat values.length)

/-- Models `Table::min_column`. -/
def Table.min_column (t : Table) (column_index : Nat) : Except Unit (Option Frac) :=
  t.aggregate_column column_index Frac.listMin

/-- Models `Table::max_column`. -/
def Table.max_column (t : Table) (column_index : Nat) : Except Unit (Option Frac) :=
  t.aggregate_column column_index Frac.listMax

/-! ## Operation sequences (for the running invariant) -/

/-- The table operations the invariant claim ranges over. -/
inductive Op where
  | add_column (header : String) (width : Nat) (alignment : Alignment)
  | add_row (row : List Cell)
  | auto_adjust_widths
  | sort_by_column (i : Nat) (ascending : Bool)
  | filter_rows (p : List Cell → Bool)
  | group_by (i : Nat)

/-- Applying one operation; `none` models the `add_row` panic. -/
def Table.applyOp (t : Table) : Op → Option Table
  | Op.add_column h w a => some (t.add_column h w a)
  | Op.add_row row => t.add_row row
  | Op.auto_adjust_widths => some t.auto_adjust_widths
  | Op.sort_by_column i asc => some (t.sort_by_column i asc)
  | Op.filter_rows p => some (t.filter_rows p)
  | Op.group_by i => some (t.group_by_column_with_subtotals i)

/-- Running a sequence of operations from a starting table. -/
def runOps (t : Table) (ops : List Op) : Option Table :=
  ops.foldlM Table.applyOp t

/-- Whether the operation is `add_column`. -/
def Op.isAddColumn : Op → Bool
  | Op.add_column _ _ _ => true
  | _ => false

/-- The structural invariant of the spec: every row's cell count equals the
column count. -/
def rowsInvariant (t : Table) : Bool :=
  t.rows.all (fun r => r.length == t.columns.length)

/-! ## Spec-side definitions used for refinement comparisons -/

/-- One fuelled unfolding of right-to-left grouping in threes: while more
than three characters remain, split off the last three and continue on the
prefix. -/
def groupThreesF : Nat → List Char → List Char
  | 0, cs => cs
  | fuel + 1, cs =>
    if cs.length ≤ 3 then cs
    else groupThreesF fuel (cs.take (cs.length - 3)) ++ ',' :: cs.drop (cs.length - 3)

/-- Grouping of a character list in threes from the right with `','`
separators; `length` iterations of fuel always suffice. -/
def groupThrees (cs : List Char) : List Char := groupThreesF cs.length cs

/-- The base formatting of a parsed cell value before thousands separation:
fixed decimal places when requested, else the `Display` form. -/
def baseNumber (c : Cell) (q : Frac) : String :=
  match c.style.decimal_places with
  | some decimal_places => formatFixed q decimal_places
  | none => f64ToString q

/-- Thousands separation described structurally: group the characters of the
part before the decimal point in threes from the right, leaving the
fractional part untouched. -/
def thousandsSpecFormat (formatted : String) : String :=
  let parts := splitOnChar '.' formatted.toList
  let ip := String.mk (groupThrees (parts.headD []))
  if parts.length > 1 then ip ++ "." ++ String.mk (parts.getD 1 []) else ip

/-- Modelled from the claim's words (C4): insert a separator every three
DIGITS of the integer part, scanning from the least-significant digit — a
leading sign is not a digit and stays in place, ungrouped. -/
def claimThousands (formatted : String) : String :=
  let parts := splitOnChar '.' formatted.toList
  let ipChars := parts.headD []
  let signChars := ipChars.takeWhile (fun c => !c.isDigit)
  let digits := ipChars.drop signChars.length
  let ip := String.mk (signChars ++ groupThrees digits)
  if parts.length > 1 then ip ++ "." ++ String.mk (parts.getD 1 []) else ip

/-- Modelled from the spec's words (C8): like `Table.auto_adjust_widths` but
measuring the cell DISPLAY length (the formatted content) instead of the raw
content length. -/
def Table.auto_adjust_widths_display (t : Table) : Table :=
  { t with columns := (List.range t.columns.length).map (fun i =>
      let col := colAt t i
      let maxDisplay := ((t.rows.map (fun row => (cellAt row i).formatted_content.utf8ByteSize)).max?).getD 0
      { col with width := max col.header.utf8ByteSize maxDisplay + 2 }) }

/-! ## Concrete fixtures the claims evaluate -/

/-- The grouping scenario table of the spec: columns `Category(Left)`,
`Amount(Right)`; rows `(A,100),(A,200),(B,300),(B,400)`. -/
def exTable : Table :=
  { columns := [{ header := "Category", width := 10, alignment := Alignment.Left },
                { header := "Amount", width := 10, alignment := Alignment.Right }],
    rows := [[Cell.new "A", Cell.new "100"], [Cell.new "A", Cell.new "200"],
             [Cell.new "B", Cell.new "300"], [Cell.new "B", Cell.new "400"]],
    style := TableStyle.Simple }

/-- The first subtotal row the grouping scenario produces. -/
def exSubtotalRow : List Cell := [Cell.new "Subtotal", Cell.new "300"]

/-- A two-column table grouped by column 1, whose subtotal row shows the
marker landing in column 0 rather than the grouping column. -/
def cexGroupTable : Table :=
  { columns := [{ header := "N", width := 5, alignment := Alignment.Left },
                { header := "K", width := 5, alignment := Alignment.Left }],
    rows := [[Cell.new "7", Cell.new "B"]],
    style := TableStyle.Simple }

/-- A one-column table holding a multi-line cell. -/
def mlTable : Table :=
  { columns := [{ header := "Col", width := 6, alignment := Alignment.Left }],
    rows := [[Cell.new "a\nb"]],
    style := TableStyle.Simple }

/-- The row-line template of the Grid style (src/styles.rs). -/
def pipeStyle : LineStyle :=
  { begin := "|", hline := "", sep := "|", endGlyph := "|" }

/-- The thousands/decimal scenario cell of the spec. -/
def scenarioCell : Cell :=
  { content := "1234567.8910",
    style := { CellStyle.new with decimal_places := some 2, thousand_separator := true } }

/-- A negative numeric cell with a thousands separator requested. -/
def negCell : Cell :=
  { content := "-123456", style := { CellStyle.new with thousand_separator := true } }

/-- A table whose only cell formats wider than its raw content
(`"1000"` displays as `"1,000"`). -/
def wTable : Table :=
  { columns := [{ header := "H", width := 1, alignment := Alignment.Left }],
    rows := [[{ content := "1000",
                style := { CellStyle.new with thousand_separator := true } }]],
    style := TableStyle.Simple }

/-- An operation sequence that adds a column after a row already exists. -/
def cexOps : List Op :=
  [Op.add_column "A" 1 Alignment.Left, Op.add_row [Cell.new "x"],
   Op.add_column "B" 1 Alignment.Left]

/-- The table `cexOps` produces. -/
def cexOpsTable : Table :=
  { columns := [{ header := "A", width := 1, alignment := Alignment.Left },
                { header := "B", width := 1, alignment := Alignment.Left }],
    rows := [[Cell.new "x"]],
    style := TableStyle.Simple }

/-- The mismatch scenario table: a single column of width 10. -/
def oneColTable : Table :=
  (Table.new TableStyle.Simple).add_column "Test" 10 Alignment.Left

/-- The aggregation fixture of the tests: one `Amount` column with rows
100, 200, 300. -/
def aggTable : Table :=
  { columns := [{ header := "Amount", width := 10, alignment := Alignment.Right }],
    rows := [[Cell.new "100"], [Cell.new "200"], [Cell.new "300"]],
    style := TableStyle.Simple }

/-- A table with a zero-width column. -/
def zeroWidthTable : Table :=
  { columns := [{ header := "X", width := 0, alignment := Alignment.Left }],
    rows := [[Cell.new "x"]],
    style := TableStyle.Simple }

/-! ## Helper lemmas: the thousands-separator loop -/

theorem vecInsert_length : ∀ (A : List Char) (n : Nat) (c : Char), n ≤ A.length →
    (vecInsert A n c).length = A.length + 1 := by
  intro A
  induction A with
  | nil =>
    intro n c h
    simp only [List.length_nil, Nat.le_zero] at h
    subst h
    simp [vecInsert]
  | cons a as ih =>
    intro n c h
    cases n with
    | zero => simp [vecInsert]
    | succ m =>
      simp only [vecInsert, List.length_cons]
      rw [ih m c (by simpa using h)]

theorem vecInsert_append : ∀ (A : List Char) (n : Nat) (c : Char) (D : List Char),
    n ≤ A.length → vecInsert (A ++ D) n c = vecInsert A n c ++ D := by
  intro A
  induction A with
  | nil =>
    intro n c D h
    simp only [List.length_nil, Nat.le_zero] at h
    subst h
    simp [vecInsert]
  | cons a as ih =>
    intro n c D h
    cases n with
    | zero => simp [vecInsert]
    | succ m =>
      simp only [List.cons_append, vecInsert, List.append_eq]
      rw [ih m c D (by simpa using h)]

theorem vecInsert_at_length : ∀ (A D : List Char) (c : Char),
    vecInsert (A ++ D) A.length c = A ++ c :: D := by
  intro A
  induction A with
  | nil => intro D c; simp [vecInsert]
  | cons a as ih =>
    intro D c
    simp only [List.cons_append, List.length_cons, vecInsert, List.append_eq]
    rw [ih D c]

theorem commaLoopF_stop (fuel : Nat) (cs : List Char) (i : ℤ) (h : ¬ i > 0) :
    commaLoopF fuel cs i = cs := by
  cases fuel <;> simp [commaLoopF, h]

theorem commaLoopF_congr : ∀ (f1 f2 : Nat) (cs : List Char) (i : ℤ),
    i ≤ 3 * f1 → i ≤ 3 * f2 → commaLoopF f1 cs i = commaLoopF f2 cs i := by
  intro f1
  induction f1 with
  | zero =>
    intro f2 cs i h1 _
    rw [commaLoopF_stop 0 cs i (by omega), commaLoopF_stop f2 cs i (by omega)]
  | succ f ih =>
    intro f2 cs i h1 h2
    by_cases hi : i > 0
    · cases f2 with
      | zero => exact absurd hi (by omega)
      | succ g =>
        simp only [commaLoopF, if_pos hi]
        exact ih g _ _ (by omega) (by omega)
    · rw [commaLoopF_stop _ _ _ hi, commaLoopF_stop _ _ _ hi]

theorem commaLoopF_append : ∀ (fuel : Nat) (i : ℤ) (A D : List Char),
    i ≤ A.length → commaLoopF fuel (A ++ D) i = commaLoopF fuel A i ++ D := by
  intro fuel
  induction fuel with
  | zero => intro i A D _; simp [commaLoopF]
  | succ f ih =>
    intro i A D h
    by_cases hi : i > 0
    · simp only [commaLoopF, if_pos hi]
      rw [vecInsert_append A i.toNat ',' D (by omega)]
      have hlen := vecInsert_length A i.toNat ',' (by omega)
      exact ih (i - 3) _ D (by rw [hlen]; omega)
    · simp only [commaLoopF, if_neg hi]

theorem commaLoop_stop (cs : List Char) (i : ℤ) (h : ¬ i > 0) :
    commaLoop cs i = cs :=
  commaLoopF_stop _ _ _ h

theorem commaLoop_step (cs : List Char) (i : ℤ) (h : i > 0) :
    commaLoop cs i = commaLoop (vecInsert cs i.toNat ',') (i - 3) := by
  unfold commaLoop
  obtain ⟨k, hk⟩ : ∃ k, i.toNat = k + 1 := ⟨i.toNat - 1, by omega⟩
  rw [hk]
  simp only [commaLoopF, if_pos h]
  rw [hk]
  exact commaLoopF_congr k (i - 3).toNat (vecInsert cs (k + 1) ',') (i - 3)
    (by omega) (by omega)

theorem commaLoop_append (i : ℤ) (A D : List Char) (h : i ≤ A.length) :
    commaLoop (A ++ D) i = commaLoop A i ++ D :=
  commaLoopF_append i.toNat i A D h

theorem groupThreesF_stop (fuel : Nat) (cs : List Char) (h : cs.length ≤ 3) :
    groupThreesF fuel cs = cs := by
  cases fuel <;> simp [groupThreesF, h]

theorem groupThreesF_congr : ∀ (f1 f2 : Nat) (cs : List Char),
    cs.length ≤ f1 → cs.length ≤ f2 → groupThreesF f1 cs = groupThreesF f2 cs := by
  intro f1
  induction f1 with
  | zero =>
    intro f2 cs h1 _
    rw [groupThreesF_stop 0 cs (by omega), groupThreesF_stop f2 cs (by omega)]
  | succ f ih =>
    intro f2 cs h1 h2
    by_cases h3 : cs.length ≤ 3
    · rw [groupThreesF_stop _ _ h3, groupThreesF_stop _ _ h3]
    · cases f2 with
      | zero => exact absurd h2 (by omega)
      | succ g =>
        simp only [groupThreesF, if_neg h3]
        have hlt : (cs.take (cs.length - 3)).length ≤ f := by
          simp only [List.length_take]; omega
        rw [ih g _ hlt (by simp only [List.length_take]; omega)]

theorem groupThrees_stop (cs : List Char) (h : cs.length ≤ 3) :
    groupThrees cs = cs :=
  groupThreesF_stop _ _ h

theorem groupThrees_step (cs : List Char) (h : ¬ cs.length ≤ 3) :
    groupThrees cs =
      groupThrees (cs.take (cs.length - 3)) ++ ',' :: cs.drop (cs.length - 3) := by
  unfold groupThrees
  obtain ⟨k, hk⟩ : ∃ k, cs.length = k + 1 := ⟨cs.length - 1, by omega⟩
  conv_lhs => rw [hk]
  simp only [groupThreesF, if_neg h]
  have h1 : (cs.take (cs.length - 3)).length ≤ k := by
    simp only [List.length_take]; omega
  rw [groupThreesF_congr k (cs.take (cs.length - 3)).length _ h1
    (by simp only [List.length_take]; omega)]

theorem commaLoop_eq_groupThrees_aux : ∀ (n : Nat) (cs : List Char), cs.length ≤ n →
    commaLoop cs ((cs.length : ℤ) - 3) = groupThrees cs := by
  intro n
  induction n with
  | zero =>
    intro cs h
    rw [commaLoop_stop _ _ (by omega), groupThrees_stop _ (by omega)]
  | succ n ih =>
    intro cs h
    by_cases h3 : cs.length ≤ 3
    · rw [commaLoop_stop _ _ (by omega), groupThrees_stop _ h3]
    · obtain ⟨A, B, hcs, hB⟩ : ∃ A B, cs = A ++ B ∧ B.length = 3 :=
        ⟨cs.take (cs.length - 3), cs.drop (cs.length - 3),
          (List.take_append_drop _ _).symm, by simp only [List.length_drop]; omega⟩
      subst hcs
      simp only [List.length_append, hB] at h h3 ⊢
      have hi : ((A.length + 3 : ℕ) : ℤ) - 3 = (A.length : ℤ) := by push_cast; ring
      rw [hi, commaLoop_step _ _ (by omega),
        show ((A.length : ℤ)).toNat = A.length from by omega,
        vecInsert_at_length A B ',', commaLoop_append _ _ _ (by omega),
        ih A (by omega), groupThrees_step (A ++ B) (by simp only [List.length_append, hB]; omega)]
      simp only [List.length_append, hB, Nat.add_sub_cancel, List.take_left,
        List.drop_left]

theorem commaLoop_eq_groupThrees (cs : List Char) :
    commaLoop cs ((cs.length : ℤ) - 3) = groupThrees cs :=
  commaLoop_eq_groupThrees_aux cs.length cs le_rfl

/-! ## Claim C1 -/

/-- Claim C1 (code bug witness): on the row `["a\nb"]` of a one-column
simple-style table, the line loop runs `rowHeight = 2` iterations, but each
iteration emits the full content — embedded newline included — so the output
has 4 physical lines with the content duplicated, instead of 2 lines carrying
the cell's first and second sub-line; the styled path behaves the same. -/
theorem C1_code_eval :
    rowHeight [Cell.new "a\nb"] = 2 ∧
    mlTable.print_row [Cell.new "a\nb"] = Except.ok " a\nb    \n a\nb    \n" ∧
    (rustLines " a\nb    \n a\nb    \n").length = 4 ∧
    mlTable.print_row_styled [Cell.new "a\nb"] pipeStyle =
      "|  a\nb     |\n|  a\nb     |\n" ∧
    (rustLines "|  a\nb     |\n|  a\nb     |\n").length = 4 := by
  decide

/-! ## Claim C3 -/

/-- Claim C3: on the spec's grouping scenario table, grouping by column 0
replaces the row sequence with exactly
`(A,100),(A,200),(Subtotal,300),(B,300),(B,400),(Subtotal,700)`, leaving the
columns and style unchanged. -/
theorem C3_grouping_scenario :
    (exTable.group_by_column_with_subtotals 0).rows =
      [[Cell.new "A", Cell.new "100"], [Cell.new "A", Cell.new "200"],
       [Cell.new "Subtotal", Cell.new "300"],
       [Cell.new "B", Cell.new "300"], [Cell.new "B", Cell.new "400"],
       [Cell.new "Subtotal", Cell.new "700"]] ∧
    (exTable.group_by_column_with_subtotals 0).columns = exTable.columns ∧
    (exTable.group_by_column_with_subtotals 0).style = exTable.style := by
  decide

/-! ## Claim C4 -/

/-- Claim C4 (counterexample): the cell `"-123456"` with a thousands
separator parses as a number, yet the formatter emits `"-,123,456"` — a
separator directly after the sign, with no digit to its left — while
grouping every three digits of the integer part from the least-significant
digit (the claim's words) yields `"-123,456"`. -/
theorem C4_counterexample :
    parseF64 negCell.content = some (Frac.ofInt (-123456)) ∧
    negCell.style.thousand_separator = true ∧
    negCell.formatted_content = "-,123,456" ∧
    claimThousands (baseNumber negCell (Frac.ofInt (-123456))) = "-123,456" ∧
    negCell.formatted_content ≠
      claimThousands (baseNumber negCell (Frac.ofInt (-123456))) := by
  decide

/-- Claim C4 (amended): for every cell that parses as a number with the
thousands separator requested, the formatter groups the CHARACTERS of the
integer part of the rounded base formatting in threes from the right — a
leading minus sign is counted like a digit, so a negative number whose digit
count is a multiple of three gets a spurious separator after the sign — and
the fractional part is never touched; the concrete scenario
`"1234567.8910"`, 2 decimal places, thousands separator → `"1,234,567.89"`
holds. -/
theorem C4_amended :
    (∀ (c : Cell) (q : Frac), parseF64 c.content = some q →
      c.style.thousand_separator = true →
      c.formatted_content = thousandsSpecFormat (baseNumber c q)) ∧
    scenarioCell.formatted_content = "1,234,567.89" := by
  refine ⟨?_, by decide⟩
  intro c q hp ht
  unfold Cell.formatted_content thousandsSpecFormat baseNumber
  rw [hp, ht]
  simp only [commaLoop_eq_groupThrees, if_pos]

/-- Claim C4 (witness): the amended theorem applied to the concrete negative
cell. -/
theorem C4_witness :
    parseF64 negCell.content = some (Frac.ofInt (-123456)) ∧
    negCell.formatted_content =
      thousandsSpecFormat (baseNumber negCell (Frac.ofInt (-123456))) :=
  ⟨by decide, C4_amended.1 negCell (Frac.ofInt (-123456)) (by decide) (by decide)⟩

/-! ## Helper lemmas: grouping -/

theorem getD_range_map {α : Type} (n : Nat) (f : Nat → α) (i : Nat) (d : α)
    (h : i < n) : ((List.range n).map f).getD i d = f i := by
  rw [List.getD_eq_getElem?_getD, List.getElem?_map, List.getElem?_range h]
  rfl

theorem calculate_subtotal_cell0 (t : Table) (g : List (List Cell))
    (h : 0 < t.columns.length) :
    cellAt (t.calculate_subtotal g) 0 = Cell.new "Subtotal" := by
  unfold cellAt Table.calculate_subtotal
  rw [getD_range_map _ _ _ _ h]
  simp

theorem calculate_subtotal_cell (t : Table) (g : List (List Cell)) (i : Nat)
    (h0 : 0 < i) (hn : i < t.columns.length) :
    cellAt (t.calculate_subtotal g) i =
      if g.all (fun row => (parseF64 (cellAt row i).content).isSome)
      then Cell.new (f64ToString (Frac.sum (g.map (fun row =>
        (parseF64 (cellAt row i).content).getD (Frac.ofInt 0)))))
      else Cell.new "" := by
  unfold cellAt Table.calculate_subtotal
  rw [getD_range_map _ _ _ _ hn, if_neg (by omega)]
  rfl

theorem group_fold_mem (t : Table) (ci : Nat) :
    ∀ (l : List (List Cell)) (s : GroupState),
      (∀ x ∈ l, x ∈ t.rows) →
      (∀ r ∈ s.grouped_rows, r ∈ t.rows ∨
        ∃ g, g ≠ [] ∧ (∀ x ∈ g, x ∈ t.rows) ∧ r = t.calculate_subtotal g) →
      (∀ x ∈ s.current_group, x ∈ t.rows) →
      (∀ r ∈ (l.foldl (groupStep t ci) s).grouped_rows, r ∈ t.rows ∨
        ∃ g, g ≠ [] ∧ (∀ x ∈ g, x ∈ t.rows) ∧ r = t.calculate_subtotal g) ∧
      (∀ x ∈ (l.foldl (groupStep t ci) s).current_group, x ∈ t.rows) := by
  intro l
  induction l with
  | nil => intro s _ h1 h2; exact ⟨h1, h2⟩
  | cons row rest ih =>
    intro s hl h1 h2
    have hrow : row ∈ t.rows := hl row (List.mem_cons_self _ _)
    simp only [List.foldl_cons]
    apply ih
    · intro x hx; exact hl x (List.mem_cons_of_mem _ hx)
    · intro r hr
      simp only [groupStep] at hr
      by_cases hc : s.current_value = none ∨
          s.current_value ≠ some (cellAt row ci).content
      · rw [if_pos hc] at hr
        simp only [List.mem_append, List.mem_singleton] at hr
        rcases hr with hr | rfl
        · by_cases hg : s.current_group.isEmpty = true
          · rw [if_pos hg] at hr
            exact h1 r hr
          · rw [if_neg hg] at hr
            rcases List.mem_append.1 hr with hr | hr
            · exact h1 r hr
            · simp only [List.mem_singleton] at hr
              subst hr
              refine Or.inr ⟨s.current_group, ?_, h2, rfl⟩
              simpa using hg
        · exact Or.inl hrow
      · rw [if_neg hc] at hr
        simp only [List.mem_append, List.mem_singleton] at hr
        rcases hr with hr | rfl
        · exact h1 r hr
        · exact Or.inl hrow
    · intro x hx
      simp only [groupStep] at hx
      by_cases hc : s.current_value = none ∨
          s.current_value ≠ some (cellAt row ci).content
      · rw [if_pos hc] at hx
        simp only [List.mem_singleton] at hx
        subst hx
        exact hrow
      · rw [if_neg hc] at hx
        simp only [List.mem_append, List.mem_singleton] at hx
        rcases hx with hx | rfl
        · exact h2 x hx
        · exact hrow

theorem group_rows_mem (t : Table) (ci : Nat) :
    ∀ r ∈ (t.group_by_column_with_subtotals ci).rows, r ∈ t.rows ∨
      ∃ g, g ≠ [] ∧ (∀ x ∈ g, x ∈ t.rows) ∧ r = t.calculate_subtotal g := by
  intro r hr
  simp only [Table.group_by_column_with_subtotals] at hr
  have H := group_fold_mem t ci t.rows
    { grouped_rows := [], current_group := [], current_value := none }
    (fun x hx => hx) (by simp) (by simp)
  by_cases hfin : (t.rows.foldl (groupStep t ci)
      { grouped_rows := [], current_group := [],
        current_value := none }).current_group.isEmpty = true
  · rw [if_pos hfin] at hr
    exact H.1 r hr
  · rw [if_neg hfin] at hr
    rcases List.mem_append.1 hr with hr | hr
    · exact H.1 r hr
    · simp only [List.mem_singleton] at hr
      subst hr
      refine Or.inr ⟨_, ?_, H.2, rfl⟩
      simpa using hfin

/-! ## Claim C2 -/

/-- Claim C2 (counterexample): grouping `cexGroupTable` by column 1 yields a
subtotal row whose grouping column (index 1) holds the empty cell, not the
`"Subtotal"` marker — the marker goes to column 0 regardless of the grouping
column; the subtotal row is synthetic (it is not among the original rows). -/
theorem C2_counterexample :
    (cexGroupTable.group_by_column_with_subtotals 1).rows =
      [[Cell.new "7", Cell.new "B"], [Cell.new "Subtotal", Cell.new ""]] ∧
    cellAt [Cell.new "Subtotal", Cell.new ""] 1 ≠ Cell.new "Subtotal" ∧
    (∀ x ∈ cexGroupTable.rows, x ≠ [Cell.new "Subtotal", Cell.new ""]) := by
  decide

theorem group_fold_run (t : Table) (ci : Nat) :
    ∀ (l : List (List Cell)) (acc g : List (List Cell)) (v : String), g ≠ [] →
      groupFinalize t (l.foldl (groupStep t ci)
        { grouped_rows := acc, current_group := g, current_value := some v }) =
        acc ++ l.takeWhile (fun x => (cellAt x ci).content == v) ++
          t.calculate_subtotal
            (g ++ l.takeWhile (fun x => (cellAt x ci).content == v)) ::
          groupRunsSpec t ci (l.dropWhile (fun x => (cellAt x ci).content == v)) := by
  intro l
  induction l with
  | nil =>
    intro acc g v hg
    simp only [List.foldl_nil, List.takeWhile_nil, List.dropWhile_nil,
      List.append_nil]
    unfold groupFinalize
    rw [if_neg (by simpa using hg)]
    simp [groupRunsSpec]
  | cons x rest ih =>
    intro acc g v hg
    simp only [List.foldl_cons]
    by_cases hv : (cellAt x ci).content = v
    · have hstep : groupStep t ci
          { grouped_rows := acc, current_group := g, current_value := some v } x =
          { grouped_rows := acc ++ [x], current_group := g ++ [x],
            current_value := some v } := by
        simp only [groupStep]
        rw [if_neg (by simp [hv])]
      rw [hstep, ih (acc ++ [x]) (g ++ [x]) v (by simp)]
      rw [List.takeWhile_cons, List.dropWhile_cons,
        if_pos (by simp [hv]), if_pos (by simp [hv])]
      simp [List.append_assoc]
    · have hstep : groupStep t ci
          { grouped_rows := acc, current_group := g, current_value := some v } x =
          { grouped_rows := (acc ++ [t.calculate_subtotal g]) ++ [x],
            current_group := [x],
            current_value := some (cellAt x ci).content } := by
        simp only [groupStep]
        rw [if_pos (Or.inr (by simp; exact fun h => hv h.symm)),
          if_neg (by simpa using hg)]
      rw [hstep,
        ih ((acc ++ [t.calculate_subtotal g]) ++ [x]) [x]
          ((cellAt x ci).content) (by simp)]
      rw [List.takeWhile_cons, List.dropWhile_cons,
        if_neg (by simp [hv]), if_neg (by simp [hv])]
      simp only [groupRunsSpec]
      simp [List.append_assoc]

theorem group_by_rows_eq_runs (t : Table) (ci : Nat) :
    (t.group_by_column_with_subtotals ci).rows = groupRunsSpec t ci t.rows := by
  have h0 : (t.group_by_column_with_subtotals ci).rows =
      groupFinalize t (t.rows.foldl (groupStep t ci)
        { grouped_rows := [], current_group := [], current_value := none }) := rfl
  rw [h0]
  cases hr : t.rows with
  | nil => simp [groupFinalize, groupRunsSpec]
  | cons x rest =>
    simp only [List.foldl_cons]
    have hstep : groupStep t ci
        { grouped_rows := [], current_group := [], current_value := none } x =
        { grouped_rows := [x], current_group := [x],
          current_value := some (cellAt x ci).content } := by
      simp [groupStep]
    rw [hstep,
      group_fold_run t ci rest [x] [x] ((cellAt x ci).content) (by simp)]
    simp only [groupRunsSpec]
    simp [List.append_assoc]

/-- Claim C2 (amended): for every in-range grouping column index, the row
sequence produced by `group_by_column_with_subtotals` is exactly the
partition of the original rows into maximal consecutive runs sharing the
grouping-column value, with the synthetic subtotal row of each run inserted
directly after THAT run (`groupRunsSpec`); and every synthetic subtotal row
`calculate_subtotal run` holds the `"Subtotal"` marker in COLUMN 0 (not the
grouping column), while every column of positive index holds the numeric sum
of that column across its run if and only if every cell of the run parses as
a number there, else an empty cell. -/
theorem C2_amended (t : Table) (ci : Nat) (hci : ci < t.columns.length) :
    (t.group_by_column_with_subtotals ci).rows = groupRunsSpec t ci t.rows ∧
    ∀ run : List (List Cell),
      cellAt (t.calculate_subtotal run) 0 = Cell.new "Subtotal" ∧
      ∀ i, 0 < i → i < t.columns.length →
        cellAt (t.calculate_subtotal run) i =
          (if run.all (fun row => (parseF64 (cellAt row i).content).isSome)
           then Cell.new (f64ToString (Frac.sum (run.map (fun row =>
             (parseF64 (cellAt row i).content).getD (Frac.ofInt 0)))))
           else Cell.new "") :=
  ⟨group_by_rows_eq_runs t ci,
    fun run => ⟨calculate_subtotal_cell0 t run (by omega),
      fun i h0 hn => calculate_subtotal_cell t run i h0 hn⟩⟩

/-- Claim C2 (witness): the amended theorem applied to the grouping scenario
table with grouping column 0. -/
theorem C2_witness :
    0 < exTable.columns.length ∧
    ((exTable.group_by_column_with_subtotals 0).rows =
        groupRunsSpec exTable 0 exTable.rows ∧
     ∀ run : List (List Cell),
       cellAt (exTable.calculate_subtotal run) 0 = Cell.new "Subtotal" ∧
       ∀ i, 0 < i → i < exTable.columns.length →
         cellAt (exTable.calculate_subtotal run) i =
           (if run.all (fun row => (parseF64 (cellAt row i).content).isSome)
            then Cell.new (f64ToString (Frac.sum (run.map (fun row =>
              (parseF64 (cellAt row i).content).getD (Frac.ofInt 0)))))
            else Cell.new "")) :=
  ⟨by decide, C2_amended exTable 0 (by decide)⟩

/-! ## Helper lemmas: the structural invariant under operations -/

theorem rowsInvariant_iff (t : Table) :
    rowsInvariant t = true ↔ ∀ r ∈ t.rows, r.length = t.columns.length := by
  simp [rowsInvariant, List.all_eq_true]

theorem calculate_subtotal_length (t : Table) (g : List (List Cell)) :
    (t.calculate_subtotal g).length = t.columns.length := by
  simp [Table.calculate_subtotal]

theorem group_preserves_inv (t : Table) (ci : Nat)
    (hinv : rowsInvariant t = true) :
    rowsInvariant (t.group_by_column_with_subtotals ci) = true := by
  rw [rowsInvariant_iff] at hinv ⊢
  intro r hr
  have hcols : (t.group_by_column_with_subtotals ci).columns = t.columns := rfl
  rw [hcols]
  rcases group_rows_mem t ci r hr with h | ⟨g, _, _, rfl⟩
  · exact hinv r h
  · exact calculate_subtotal_length t g

theorem applyOp_preserves (t t' : Table) (op : Op)
    (hop : op.isAddColumn = false) (hinv : rowsInvariant t = true)
    (h : t.applyOp op = some t') : rowsInvariant t' = true := by
  cases op with
  | add_column h w a => simp [Op.isAddColumn] at hop
  | add_row row =>
    simp only [Table.applyOp, Table.add_row] at h
    split at h
    · rename_i hlen
      obtain rfl := Option.some.inj h
      rw [rowsInvariant_iff] at hinv ⊢
      intro r hr
      rcases List.mem_append.1 hr with hr | hr
      · exact hinv r hr
      · simp only [List.mem_singleton] at hr
        subst hr
        exact hlen.symm
    · exact absurd h (by simp)
  | auto_adjust_widths =>
    obtain rfl := Option.some.inj h
    rw [rowsInvariant_iff] at hinv ⊢
    intro r hr
    have : (t.auto_adjust_widths).columns.length = t.columns.length := by
      simp [Table.auto_adjust_widths]
    rw [this]
    exact hinv r hr
  | sort_by_column i asc =>
    obtain rfl := Option.some.inj h
    rw [rowsInvariant_iff] at hinv ⊢
    intro r hr
    exact hinv r ((List.mem_insertionSort _).1 hr)
  | filter_rows p =>
    obtain rfl := Option.some.inj h
    rw [rowsInvariant_iff] at hinv ⊢
    intro r hr
    exact hinv r (List.mem_of_mem_filter hr)
  | group_by i =>
    obtain rfl := Option.some.inj h
    exact group_preserves_inv t i hinv

theorem runOps_preserves : ∀ (ops : List Op),
    (∀ op ∈ ops, op.isAddColumn = false) → ∀ (t t' : Table),
    rowsInvariant t = true → runOps t ops = some t' →
    rowsInvariant t' = true := by
  intro ops
  induction ops with
  | nil =>
    intro _ t t' hinv h
    simp only [runOps, List.foldlM_nil] at h
    obtain rfl := Option.some.inj h
    exact hinv
  | cons op rest ih =>
    intro hops t t' hinv h
    simp only [runOps, List.foldlM_cons] at h
    cases happly : t.applyOp op with
    | none => rw [happly] at h; exact absurd h (by simp)
    | some t1 =>
      rw [happly] at h
      simp only [Option.bind_eq_bind, Option.some_bind] at h
      exact ih (fun o ho => hops o (List.mem_cons_of_mem _ ho)) t1 t'
        (applyOp_preserves t t1 op (hops op (List.mem_cons_self _ _)) hinv happly) h

theorem runOps_addcols : ∀ (ops : List Op),
    (∀ op ∈ ops, op.isAddColumn = true) → ∀ (t : Table), t.rows = [] →
    ∃ t', runOps t ops = some t' ∧ t'.rows = [] := by
  intro ops
  induction ops with
  | nil =>
    intro _ t ht
    exact ⟨t, by simp [runOps], ht⟩
  | cons op rest ih =>
    intro hops t ht
    cases op with
    | add_column hd w a =>
      obtain ⟨t', h1, h2⟩ := ih (fun o ho => hops o (List.mem_cons_of_mem _ ho))
        (t.add_column hd w a) (by simp [Table.add_column, ht])
      refine ⟨t', ?_, h2⟩
      simp only [runOps, List.foldlM_cons, Table.applyOp, Option.bind_eq_bind,
        Option.some_bind]
      exact h1
    | add_row row => exact absurd (hops _ (List.mem_cons_self _ _)) (by simp [Op.isAddColumn])
    | auto_adjust_widths => exact absurd (hops _ (List.mem_cons_self _ _)) (by simp [Op.isAddColumn])
    | sort_by_column i asc => exact absurd (hops _ (List.mem_cons_self _ _)) (by simp [Op.isAddColumn])
    | filter_rows p => exact absurd (hops _ (List.mem_cons_self _ _)) (by simp [Op.isAddColumn])
    | group_by i => exact absurd (hops _ (List.mem_cons_self _ _)) (by simp [Op.isAddColumn])

/-! ## Claim C5 -/

/-- Claim C5 (counterexample): the operation sequence add_column, add_row,
add_column leaves a table whose single row has 1 cell but whose column count
is 2 — `add_column` does not extend existing rows, so the invariant fails
after a column is added to a table that already has rows. -/
theorem C5_counterexample :
    runOps (Table.new TableStyle.Simple) cexOps = some cexOpsTable ∧
    rowsInvariant cexOpsTable = false := by
  decide

/-- Claim C5 (amended): every row's cell count equals the column count after
any operation sequence in which all `add_column` operations come first (while
the table still has no rows); every operation other than `add_column` —
add_row, auto_adjust_widths, sort_by_column, filter_rows,
group_by_column_with_subtotals — preserves the invariant. -/
theorem C5_amended (style : TableStyle) (ops₁ ops₂ : List Op) (t' : Table)
    (h1 : ∀ op ∈ ops₁, op.isAddColumn = true)
    (h2 : ∀ op ∈ ops₂, op.isAddColumn = false)
    (hrun : runOps (Table.new style) (ops₁ ++ ops₂) = some t') :
    rowsInvariant t' = true := by
  rw [runOps, List.foldlM_append] at hrun
  obtain ⟨u, hu, hurows⟩ := runOps_addcols ops₁ h1 (Table.new style) rfl
  rw [runOps] at hu
  rw [hu] at hrun
  simp only [Option.bind_eq_bind, Option.some_bind] at hrun
  exact runOps_preserves ops₂ h2 u t'
    (by rw [rowsInvariant_iff, hurows]; intro r hr; exact absurd hr (List.not_mem_nil r)) hrun

/-- Claim C5 (witness): the amended theorem applied to a concrete well-phased
operation sequence. -/
theorem C5_witness :
    (∀ op ∈ [Op.add_column "A" 1 Alignment.Left], op.isAddColumn = true) ∧
    rowsInvariant { columns := [{ header := "A", width := 1, alignment := Alignment.Left }],
                    rows := [[Cell.new "x"]], style := TableStyle.Simple } = true :=
  ⟨by decide,
    C5_amended TableStyle.Simple [Op.add_column "A" 1 Alignment.Left]
      [Op.add_row [Cell.new "x"]] _ (by decide) (by decide) (by decide)⟩

/-! ## Claim C6 -/

/-- Claim C6: `add_row` with a row whose length differs from the column count
fails (`none` models the `assert_eq!` panic, which fires before the push, so
the table value is untouched). -/
theorem C6_add_row_mismatch (t : Table) (row : List Cell)
    (h : row.length ≠ t.columns.length) : t.add_row row = none := by
  unfold Table.add_row
  rw [if_neg (by omega)]

/-- Claim C6 (witness): the mismatch scenario — a one-column table of width
10 rejects a two-cell row, and its row count is 0. -/
theorem C6_witness :
    ([Cell.new "Value1", Cell.new "Value2"].length ≠ oneColTable.columns.length) ∧
    oneColTable.add_row [Cell.new "Value1", Cell.new "Value2"] = none ∧
    oneColTable.rows.length = 0 :=
  ⟨by decide, C6_add_row_mismatch oneColTable _ (by decide), by decide⟩

/-! ## Helper lemmas: aggregation -/

theorem collectValues_ok : ∀ (rows : List (List Cell)) (i : Nat),
    (∀ r ∈ rows, i < r.length) →
    collectValues rows i =
      Except.ok (rows.filterMap (fun r => parseF64 (cellAt r i).content)) := by
  intro rows i
  induction rows with
  | nil => intro _; rfl
  | cons row rest ih =>
    intro h
    have hi : i < row.length := h row (List.mem_cons_self _ _)
    have hc : cellAt row i = row[i] := by
      unfold cellAt
      rw [List.getD_eq_getElem?_getD, List.getElem?_eq_getElem hi]
      rfl
    simp only [collectValues, List.getElem?_eq_getElem hi,
      ih (fun r hr => h r (List.mem_cons_of_mem _ hr)), List.filterMap_cons, hc]
    cases hp : parseF64 (row[i]).content <;> simp only [hp] <;> rfl

theorem collectValues_err : ∀ (rows : List (List Cell)) (i : Nat),
    (∃ r ∈ rows, r.length ≤ i) → collectValues rows i = Except.error () := by
  intro rows i
  induction rows with
  | nil => rintro ⟨r, hr, _⟩; exact absurd hr (List.not_mem_nil r)
  | cons row rest ih =>
    rintro ⟨r, hr, hlen⟩
    by_cases hrow : row.length ≤ i
    · simp only [collectValues, List.getElem?_eq_none hrow]
    · have hr' : r ∈ rest := by
        rcases List.mem_cons.1 hr with rfl | hr'
        · exact absurd hlen hrow
        · exact hr'
      have hi : i < row.length := by omega
      simp only [collectValues, List.getElem?_eq_getElem hi, ih ⟨r, hr', hlen⟩]
      rfl

/-! ## Claim C7 -/

/-- Claim C7: for every in-range column index of an invariant-satisfying
table and every reduction, aggregation silently discards unparsable cells: it
returns `Except.ok none` exactly when no cell of the column parses, and
otherwise `Except.ok (some (f values))` for the parsed values in row order;
`sum_column`, `average_column`, `min_column` and `max_column` are exactly
`aggregate_column` at their respective reductions. -/
theorem C7_aggregate_skips_unparsable (t : Table) (i : Nat)
    (f : List Frac → Frac) (hi : i < t.columns.length)
    (hinv : rowsInvariant t = true) :
    (t.aggregate_column i f = Except.ok none ↔
      ∀ r ∈ t.rows, parseF64 (cellAt r i).content = none) ∧
    (t.rows.filterMap (fun r => parseF64 (cellAt r i).content) ≠ [] →
      t.aggregate_column i f = Except.ok (some
        (f (t.rows.filterMap (fun r => parseF64 (cellAt r i).content))))) ∧
    t.sum_column i = t.aggregate_column i Frac.sum ∧
    t.average_column i =
      t.aggregate_column i (fun values => (Frac.sum values).divByNat values.length) ∧
    t.min_column i = t.aggregate_column i Frac.listMin ∧
    t.max_column i = t.aggregate_column i Frac.listMax := by
  have hrows : ∀ r ∈ t.rows, i < r.length := fun r hr => by
    rw [(rowsInvariant_iff t).1 hinv r hr]; exact hi
  have hco := collectValues_ok t.rows i hrows
  refine ⟨?_, ?_, rfl, rfl, rfl, rfl⟩
  · unfold Table.aggregate_column
    simp only [hco]
    by_cases hL : t.rows.filterMap (fun r => parseF64 (cellAt r i).content) = []
    · rw [hL]
      simp only [List.isEmpty_nil, if_true]
      exact ⟨fun _ => List.filterMap_eq_nil_iff.1 hL, fun _ => trivial⟩
    · rw [if_neg (by simpa [List.isEmpty_iff] using hL)]
      constructor
      · intro h
        exact absurd (Except.ok.inj h) (by simp)
      · intro hall
        exact absurd (List.filterMap_eq_nil_iff.2 hall) hL
  · intro hL
    unfold Table.aggregate_column
    simp only [hco]
    rw [if_neg (by simpa [List.isEmpty_iff] using hL)]

/-- Claim C7 (witness): the theorem applied to the test fixture table. -/
theorem C7_witness :
    (0 < aggTable.columns.length ∧ rowsInvariant aggTable = true) ∧
    ((aggTable.aggregate_column 0 Frac.sum = Except.ok none ↔
      ∀ r ∈ aggTable.rows, parseF64 (cellAt r 0).content = none) ∧
     (aggTable.rows.filterMap (fun r => parseF64 (cellAt r 0).content) ≠ [] →
      aggTable.aggregate_column 0 Frac.sum = Except.ok (some
        (Frac.sum (aggTable.rows.filterMap (fun r => parseF64 (cellAt r 0).content))))) ∧
     aggTable.sum_column 0 = aggTable.aggregate_column 0 Frac.sum ∧
     aggTable.average_column 0 =
       aggTable.aggregate_column 0 (fun values => (Frac.sum values).divByNat values.length) ∧
     aggTable.min_column 0 = aggTable.aggregate_column 0 Frac.listMin ∧
     aggTable.max_column 0 = aggTable.aggregate_column 0 Frac.listMax) :=
  ⟨⟨by decide, by decide⟩,
    C7_aggregate_skips_unparsable aggTable 0 Frac.sum (by decide) (by decide)⟩

/-! ## Claim C10 -/

/-- Claim C10: with zero rows, `aggregate_column` (and so the four derived
aggregations) returns `Except.ok none` for EVERY column index, in range or
not; but as soon as some row lacks a cell at the index, the `row[i]` indexing
panics (modelled `Except.error ()`) instead of returning `none`. -/
theorem C10_oob_panic :
    (∀ (t : Table) (i : Nat) (f : List Frac → Frac), t.rows = [] →
      t.aggregate_column i f = Except.ok none ∧
      t.sum_column i = Except.ok none ∧
      t.average_column i = Except.ok none ∧
      t.min_column i = Except.ok none ∧
      t.max_column i = Except.ok none) ∧
    (∀ (t : Table) (i : Nat) (f : List Frac → Frac) (r : List Cell),
      r ∈ t.rows → r.length ≤ i →
      t.aggregate_column i f = Except.error ()) := by
  constructor
  · intro t i f ht
    have key : ∀ g : List Frac → Frac, t.aggregate_column i g = Except.ok none := by
      intro g
      unfold Table.aggregate_column
      rw [ht]
      rfl
    exact ⟨key f, key _, key _, key _, key _⟩
  · intro t i f r hr hlen
    unfold Table.aggregate_column
    rw [collectValues_err t.rows i ⟨r, hr, hlen⟩]

/-- Claim C10 (witness): both parts applied concretely — an empty table
aggregates to `ok none` at an arbitrary index, and a table whose row has one
cell panics at index 5. -/
theorem C10_witness :
    ((Table.new TableStyle.Simple).rows = [] ∧
      (Table.new TableStyle.Simple).aggregate_column 3 Frac.sum = Except.ok none) ∧
    ([Cell.new "x"] ∈ zeroWidthTable.rows ∧ [Cell.new "x"].length ≤ 5) ∧
    zeroWidthTable.aggregate_column 5 Frac.sum = Except.error () :=
  ⟨⟨rfl, (C10_oob_panic.1 (Table.new TableStyle.Simple) 3 Frac.sum rfl).1⟩,
    ⟨by decide, by decide⟩,
    C10_oob_panic.2 zeroWidthTable 5 Frac.sum [Cell.new "x"] (by decide) (by decide)⟩

/-! ## Helper lemmas: simple rendering -/

theorem headers_go_ok : ∀ (cols : List Column), (∀ c ∈ cols, 1 ≤ c.width) →
    ∃ s, print_headers_go cols = Except.ok s := by
  intro cols
  induction cols with
  | nil => exact fun _ => ⟨"", rfl⟩
  | cons c rest ih =>
    intro h
    have hc : ¬ c.width = 0 := by
      have := h c (List.mem_cons_self _ _); omega
    cases rest with
    | nil => exact ⟨_, by simp only [print_headers_go, if_neg hc]; rfl⟩
    | cons c2 rest2 =>
      obtain ⟨s, hs⟩ := ih (fun x hx => h x (List.mem_cons_of_mem _ hx))
      exact ⟨_, by simp only [print_headers_go, if_neg hc, hs]; rfl⟩

theorem rowline_ok : ∀ (pairs : List (Column × Cell)),
    (∀ p ∈ pairs, 1 ≤ p.1.width) →
    ∃ s, rowLineSimple pairs = Except.ok s := by
  intro pairs
  induction pairs with
  | nil => exact fun _ => ⟨"", rfl⟩
  | cons p rest ih =>
    intro h
    have hc : ¬ p.1.width = 0 := by
      have := h p (List.mem_cons_self _ _); omega
    obtain ⟨s, hs⟩ := ih (fun x hx => h x (List.mem_cons_of_mem _ hx))
    exact ⟨_, by simp only [rowLineSimple, rowChunkSimple, if_neg hc, hs]; rfl⟩

/-! ## Claim C9 -/

/-- Claim C9: the simple rendering path pads fields to `column.width - 1` in
`usize` arithmetic, so with every column width at least 1 neither
`print_headers` nor `print_row` can underflow (they return `ok`), while a
zero-width column makes both fail with the underflow panic
(`Except.error ()`). -/
theorem C9_width_underflow :
    (∀ t : Table, (∀ c ∈ t.columns, 1 ≤ c.width) →
      (∃ s, t.print_headers = Except.ok s) ∧
      ∀ row, ∃ s, t.print_row row = Except.ok s) ∧
    zeroWidthTable.print_headers = Except.error () ∧
    zeroWidthTable.print_row [Cell.new "x"] = Except.error () := by
  refine ⟨?_, by decide, by decide⟩
  intro t h
  constructor
  · obtain ⟨s, hs⟩ := headers_go_ok t.columns h
    exact ⟨s ++ "\n", by unfold Table.print_headers; rw [hs]⟩
  · intro row
    obtain ⟨s, hs⟩ := rowline_ok (t.columns.zip row) (fun p hp => by
      obtain ⟨c, cl⟩ := p
      exact h c (List.of_mem_zip hp).1)
    exact ⟨_, by unfold Table.print_row; rw [hs]⟩

/-- Claim C9 (witness): the positive half applied to a table whose widths are
all at least 1. -/
theorem C9_witness :
    (∀ c ∈ mlTable.columns, 1 ≤ c.width) ∧
    ((∃ s, mlTable.print_headers = Except.ok s) ∧
     ∀ row, ∃ s, mlTable.print_row row = Except.ok s) :=
  ⟨by decide, C9_width_underflow.1 mlTable (by decide)⟩

/-! ## Helper lemmas: width adjustment -/

theorem max?_getD_spec (l : List Nat) :
    (∀ x ∈ l, x ≤ (l.max?).getD 0) ∧
    ((l.max?).getD 0 = 0 ∨ (l.max?).getD 0 ∈ l) := by
  cases hm : l.max? with
  | none =>
    constructor
    · intro x hx
      rw [List.max?_eq_none_iff.1 hm] at hx
      exact absurd hx (List.not_mem_nil x)
    · exact Or.inl rfl
  | some a =>
    obtain ⟨hmem, hle⟩ := List.max?_eq_some_iff'.1 hm
    exact ⟨fun x hx => hle x hx, Or.inr hmem⟩

theorem maxContentLen_spec (t : Table) (i : Nat) :
    (∀ r ∈ t.rows, (cellAt r i).content.utf8ByteSize ≤ maxContentLen t i) ∧
    (maxContentLen t i = 0 ∨
      ∃ r ∈ t.rows, maxContentLen t i = (cellAt r i).content.utf8ByteSize) := by
  unfold maxContentLen
  have H := max?_getD_spec (t.rows.map (fun row => (cellAt row i).content.utf8ByteSize))
  constructor
  · intro r hr
    exact H.1 _ (List.mem_map.2 ⟨r, hr, rfl⟩)
  · rcases H.2 with h0 | hmem
    · exact Or.inl h0
    · obtain ⟨r, hr, hrv⟩ := List.mem_map.1 hmem
      exact Or.inr ⟨r, hr, hrv.symm⟩

theorem auto_adjust_colAt (t : Table) (i : Nat) (hi : i < t.columns.length) :
    colAt (t.auto_adjust_widths) i =
      { colAt t i with width := max (colAt t i).header.utf8ByteSize (maxContentLen t i) + 2 } := by
  unfold Table.auto_adjust_widths colAt
  rw [getD_range_map _ _ _ _ hi]

/-! ## Claim C8 -/

/-- Claim C8 (counterexample): a cell `"1000"` with a thousands separator
displays as `"1,000"` (5 bytes) but `auto_adjust_widths` measures its RAW
content (4 bytes): the code yields width 6 where the display-length reading
of the claim demands 7. -/
theorem C8_counterexample :
    Cell.formatted_content { content := "1000", style := { CellStyle.new with thousand_separator := true } } = "1,000" ∧
    wTable.auto_adjust_widths.columns.map Column.width = [6] ∧
    (wTable.auto_adjust_widths_display).columns.map Column.width = [7] ∧
    wTable.auto_adjust_widths.columns ≠
      (wTable.auto_adjust_widths_display).columns := by
  decide

/-- Claim C8 (amended): `auto_adjust_widths` sets every column's width to
`max(header byte length, maximum RAW cell content byte length over the rows)
+ 2` — the raw `content.len()`, not the formatted display length — keeping
header and alignment, and touching neither the rows nor the style (it is a
separate opt-in operation; the renderers read only the stored widths). -/
theorem C8_amended (t : Table) :
    (t.auto_adjust_widths).rows = t.rows ∧
    (t.auto_adjust_widths).style = t.style ∧
    (t.auto_adjust_widths).columns.length = t.columns.length ∧
    ∀ i, i < t.columns.length →
      (colAt (t.auto_adjust_widths) i).header = (colAt t i).header ∧
      (colAt (t.auto_adjust_widths) i).alignment = (colAt t i).alignment ∧
      (colAt t i).header.utf8ByteSize + 2 ≤ (colAt (t.auto_adjust_widths) i).width ∧
      (∀ r ∈ t.rows, (cellAt r i).content.utf8ByteSize + 2 ≤
        (colAt (t.auto_adjust_widths) i).width) ∧
      ((colAt (t.auto_adjust_widths) i).width =
          (colAt t i).header.utf8ByteSize + 2 ∨
        ∃ r ∈ t.rows, (colAt (t.auto_adjust_widths) i).width =
          (cellAt r i).content.utf8ByteSize + 2) := by
  refine ⟨rfl, rfl, by simp [Table.auto_adjust_widths], ?_⟩
  intro i hi
  rw [auto_adjust_colAt t i hi]
  refine ⟨rfl, rfl, ?_, ?_, ?_⟩
  · exact Nat.add_le_add_right (Nat.le_max_left _ _) 2
  · intro r hr
    exact Nat.add_le_add_right
      (le_trans ((maxContentLen_spec t i).1 r hr) (Nat.le_max_right _ _)) 2
  · rcases (maxContentLen_spec t i).2 with h0 | ⟨r, hr, hrv⟩
    · left
      rw [h0, Nat.max_zero]
    · rcases max_choice (colAt t i).header.utf8ByteSize (maxContentLen t i) with hc | hc
      · left
        rw [hc]
      · right
        exact ⟨r, hr, by rw [hc, hrv]⟩

/-- Claim C8 (witness): the amended theorem applied to the concrete
formatted-cell table at column 0. -/
theorem C8_witness :
    0 < wTable.columns.length ∧
    (colAt wTable 0).header.utf8ByteSize + 2 ≤
      (colAt (wTable.auto_adjust_widths) 0).width ∧
    ∀ r ∈ wTable.rows, (cellAt r 0).content.utf8ByteSize + 2 ≤
      (colAt (wTable.auto_adjust_widths) 0).width :=
  ⟨by decide, ((C8_amended wTable).2.2.2 0 (by decide)).2.2.1,
    ((C8_amended wTable).2.2.2 0 (by decide)).2.2.2.1⟩

end Tabprinter
